import Mathlib

/-!
Verification of the MWT-expander training/evaluation orchestrator
(`models/mwt_expander.py`).

The orchestrator is embedded shallowly:

* the seq2seq epoch loop (`train`, lines 123-177) becomes a step function
  `epochStep` over an explicit `TrainState`, iterated by `runEpochs`;
  Python runtime faults (`max([])` raising `ValueError`,
  `dev_score_history[-1]` raising `IndexError` on an empty list) are
  modelled as `Option.none`;
* the dev score obtained at each epoch by the external scorer is a
  parameter `scores : Nat → ℚ` (the score of epoch `e` is `scores e`);
* the surrounding dispatch (`train` lines 84-122 and 172-177,
  `evaluate` lines 179-218, seeding in `main` lines 65-74) is embedded
  as functions producing event traces, one event per external side
  effect, in program order.
-/

/-- The slice of the parsed arguments dictionary that the orchestration
logic reads (`parse_args` / the `args` dict). -/
structure MwtArgs where
  data_dir : String
  train_file : String
  eval_file : String
  output_file : String
  gold_file : String
  save_dir : String
  save_name : Option String
  lang : String
  best_param : Bool
  dict_only : Bool
  lr : ℚ
  lr_decay : ℚ
  decay_epoch : Int
  num_epoch : Nat
  deriving Repr, DecidableEq

/-- Mutable state of the seq2seq training loop (`train`, lines 127-170):
the dev score history, the current learning rate, and — for the
verification — the epochs at which `trainer.save` and
`trainer.change_lr` were invoked, in order. -/
structure TrainState where
  dev_score_history : List ℚ
  current_lr : ℚ
  saves : List Nat
  lr_changes : List Nat
  deriving Repr, DecidableEq

/-- Python's `max` on a list of rationals; the `[]` case is junk (the
call sites guard emptiness, mirroring `ValueError` as `none` there). -/
def listMax : List ℚ → ℚ
  | [] => 0
  | x :: xs => xs.foldl max x

/-- `if epoch == 1 or dev_score > max(dev_score_history)` (line 160).
Python evaluates `max(dev_score_history)` only when `epoch != 1`; on an
empty history that raises `ValueError`, modelled as `none`. -/
def saveDecision (epoch : Nat) (hist : List ℚ) (dev_score : ℚ) : Option Bool :=
  if epoch = 1 then some true
  else if hist = [] then none
  else some (decide (listMax hist < dev_score))

/-- `if epoch > args['decay_epoch'] and dev_score <= dev_score_history[-1]`
(line 165). `hist[-1]` on an empty list raises `IndexError`, modelled as
`none`; the `and` short-circuits, so the read happens only when
`epoch > decay_epoch`. -/
def decayDecision (cfg : MwtArgs) (epoch : Nat) (hist : List ℚ) (dev_score : ℚ) :
    Option Bool :=
  if cfg.decay_epoch < (epoch : Int) then
    match hist.getLast? with
    | none => none
    | some last => some (decide (dev_score ≤ last))
  else some false

/-- One iteration of `for epoch in range(1, args['num_epoch']+1)`
(lines 135-170), restricted to the state-relevant tail (lines 159-169):
checkpoint decision, then lr-decay decision, then
`dev_score_history += [dev_score]`. -/
def epochStep (cfg : MwtArgs) (epoch : Nat) (dev_score : ℚ) (s : TrainState) :
    Option TrainState :=
  match saveDecision epoch s.dev_score_history dev_score with
  | none => none
  | some sd =>
    let s1 := if sd then { s with saves := s.saves ++ [epoch] } else s
    match decayDecision cfg epoch s1.dev_score_history dev_score with
    | none => none
    | some dd =>
      let s2 := if dd then
          { s1 with current_lr := s1.current_lr * cfg.lr_decay,
                    lr_changes := s1.lr_changes ++ [epoch] }
        else s1
      some { s2 with dev_score_history := s2.dev_score_history ++ [dev_score] }

/-- State before the loop (lines 129-130): empty history, lr from args. -/
def initState (cfg : MwtArgs) : TrainState :=
  { dev_score_history := [], current_lr := cfg.lr, saves := [], lr_changes := [] }

/-- Run the first `e` epochs of the loop (epochs `1, …, e`). -/
def runEpochs (cfg : MwtArgs) (scores : Nat → ℚ) : Nat → Option TrainState
  | 0 => some (initState cfg)
  | e + 1 =>
    match runEpochs cfg scores e with
    | none => none
    | some s => epochStep cfg (e + 1) (scores (e + 1)) s

/-- The full seq2seq training loop: epochs `1, …, num_epoch`. -/
def trainLoop (cfg : MwtArgs) (scores : Nat → ℚ) : Option TrainState :=
  runEpochs cfg scores cfg.num_epoch

/-- The dev scores of epochs `1, …, e`, i.e. the dev score history after
`e` completed epochs. -/
def histUpTo (scores : Nat → ℚ) (e : Nat) : List ℚ :=
  (List.range e).map (fun i => scores (i + 1))

/-- Closed form of the checkpoint condition at epoch `e` (line 160). -/
def saveCondB (scores : Nat → ℚ) (e : Nat) : Bool :=
  (e == 1) || decide (listMax (histUpTo scores (e - 1)) < scores e)

/-- Closed form of the lr-decay condition at epoch `e` (line 165). -/
def decayCondB (cfg : MwtArgs) (scores : Nat → ℚ) (e : Nat) : Bool :=
  decide (cfg.decay_epoch < (e : Int)) && decide (scores e ≤ scores (e - 1))

/-- The epochs in `1, …, e` at which a checkpoint is saved. -/
def savesUpTo (scores : Nat → ℚ) (e : Nat) : List Nat :=
  (((List.range e).map (· + 1)).filter (saveCondB scores))

/-- The epochs in `1, …, e` at which the learning rate is decayed. -/
def decaysUpTo (cfg : MwtArgs) (scores : Nat → ℚ) (e : Nat) : List Nat :=
  (((List.range e).map (· + 1)).filter (decayCondB cfg scores))

lemma histUpTo_succ (scores : Nat → ℚ) (e : Nat) :
    histUpTo scores (e + 1) = histUpTo scores e ++ [scores (e + 1)] := by
  simp [histUpTo, List.range_succ]

lemma length_histUpTo (scores : Nat → ℚ) (e : Nat) :
    (histUpTo scores e).length = e := by
  simp [histUpTo]

lemma histUpTo_ne_nil (scores : Nat → ℚ) {e : Nat} (he : 1 ≤ e) :
    histUpTo scores e ≠ [] := by
  intro h
  have := length_histUpTo scores e
  rw [h] at this
  simp at this
  omega

lemma getLast?_histUpTo (scores : Nat → ℚ) {e : Nat} (he : 1 ≤ e) :
    (histUpTo scores e).getLast? = some (scores e) := by
  obtain ⟨k, rfl⟩ : ∃ k, e = k + 1 := ⟨e - 1, by omega⟩
  rw [histUpTo_succ]
  exact List.getLast?_concat _

lemma savesUpTo_succ (scores : Nat → ℚ) (e : Nat) :
    savesUpTo scores (e + 1) =
      savesUpTo scores e ++ (if saveCondB scores (e + 1) then [e + 1] else []) := by
  simp only [savesUpTo, List.range_succ, List.map_append, List.filter_append,
    List.map_cons, List.map_nil]
  by_cases h : saveCondB scores (e + 1) <;> simp [h, List.filter]

lemma decaysUpTo_succ (cfg : MwtArgs) (scores : Nat → ℚ) (e : Nat) :
    decaysUpTo cfg scores (e + 1) =
      decaysUpTo cfg scores e ++
        (if decayCondB cfg scores (e + 1) then [e + 1] else []) := by
  simp only [decaysUpTo, List.range_succ, List.map_append, List.filter_append,
    List.map_cons, List.map_nil]
  by_cases h : decayCondB cfg scores (e + 1) <;> simp [h, List.filter]

/-- `epochStep` on resolved decisions: if neither of the two reads
faults, the step appends the score and applies the two conditional
updates. -/
lemma epochStep_some (cfg : MwtArgs) (epoch : Nat) (ds : ℚ) (s : TrainState)
    (sd dd : Bool)
    (h1 : saveDecision epoch s.dev_score_history ds = some sd)
    (h2 : decayDecision cfg epoch s.dev_score_history ds = some dd) :
    epochStep cfg epoch ds s = some
      { dev_score_history := s.dev_score_history ++ [ds],
        current_lr := if dd then s.current_lr * cfg.lr_decay else s.current_lr,
        saves := if sd then s.saves ++ [epoch] else s.saves,
        lr_changes := if dd then s.lr_changes ++ [epoch] else s.lr_changes } := by
  cases sd <;> cases dd <;> simp [epochStep, h1, h2]

/-- Invariant of the seq2seq loop: provided `decay_epoch ≥ 1`, running
`e` epochs never faults, and the resulting state is exactly described by
the closed forms: the history is the scores of epochs `1..e`, the saved
epochs are those satisfying the checkpoint condition, the decayed epochs
those satisfying the lr condition, and the learning rate is the initial
rate times the decay factor once per decay. -/
lemma runEpochs_eq (cfg : MwtArgs) (scores : Nat → ℚ) (hd : 1 ≤ cfg.decay_epoch)
    (e : Nat) :
    runEpochs cfg scores e = some
      { dev_score_history := histUpTo scores e,
        current_lr := cfg.lr * cfg.lr_decay ^ (decaysUpTo cfg scores e).length,
        saves := savesUpTo scores e,
        lr_changes := decaysUpTo cfg scores e } := by
  induction e with
  | zero =>
    simp [runEpochs, initState, histUpTo, savesUpTo, decaysUpTo]
  | succ e ih =>
    simp only [runEpochs, ih]
    have hsd : saveDecision (e + 1) (histUpTo scores e) (scores (e + 1)) =
        some (saveCondB scores (e + 1)) := by
      rcases Nat.eq_zero_or_pos e with he | he
      · subst he
        unfold saveDecision saveCondB
        simp [histUpTo]
      · have hne : histUpTo scores e ≠ [] := histUpTo_ne_nil scores he
        have hep : e + 1 ≠ 1 := by omega
        unfold saveDecision saveCondB
        rw [if_neg hep, if_neg hne]
        simp [Nat.add_sub_cancel, show e ≠ 0 by omega]
    have hdd : decayDecision cfg (e + 1) (histUpTo scores e) (scores (e + 1)) =
        some (decayCondB cfg scores (e + 1)) := by
      by_cases h : cfg.decay_epoch < ((e + 1 : Nat) : Int)
      · have he : 1 ≤ e := by omega
        have hlast : (histUpTo scores e).getLast? = some (scores e) :=
          getLast?_histUpTo scores he
        unfold decayDecision decayCondB
        rw [if_pos h, hlast, Nat.add_sub_cancel, decide_eq_true h, Bool.true_and]
      · unfold decayDecision decayCondB
        rw [if_neg h, decide_eq_false h, Bool.false_and]
    rw [epochStep_some cfg (e + 1) (scores (e + 1))
        { dev_score_history := histUpTo scores e,
          current_lr := cfg.lr * cfg.lr_decay ^ (decaysUpTo cfg scores e).length,
          saves := savesUpTo scores e,
          lr_changes := decaysUpTo cfg scores e }
        (saveCondB scores (e + 1)) (decayCondB cfg scores (e + 1)) hsd hdd]
    refine congrArg some ?_
    rw [histUpTo_succ, savesUpTo_succ, decaysUpTo_succ]
    by_cases hcs : saveCondB scores (e + 1) <;>
      by_cases hcd : decayCondB cfg scores (e + 1) <;>
        simp [hcs, hcd, pow_succ, mul_assoc]

lemma mem_savesUpTo (scores : Nat → ℚ) (n k : Nat) :
    k ∈ savesUpTo scores n ↔ (1 ≤ k ∧ k ≤ n ∧ saveCondB scores k = true) := by
  simp only [savesUpTo, List.mem_filter, List.mem_map, List.mem_range]
  constructor
  · rintro ⟨⟨i, hi, rfl⟩, hc⟩
    exact ⟨by omega, by omega, hc⟩
  · rintro ⟨h1, h2, hc⟩
    exact ⟨⟨k - 1, by omega, by omega⟩, hc⟩

lemma mem_decaysUpTo (cfg : MwtArgs) (scores : Nat → ℚ) (n k : Nat) :
    k ∈ decaysUpTo cfg scores n ↔
      (1 ≤ k ∧ k ≤ n ∧ decayCondB cfg scores k = true) := by
  simp only [decaysUpTo, List.mem_filter, List.mem_map, List.mem_range]
  constructor
  · rintro ⟨⟨i, hi, rfl⟩, hc⟩
    exact ⟨by omega, by omega, hc⟩
  · rintro ⟨h1, h2, hc⟩
    exact ⟨⟨k - 1, by omega, by omega⟩, hc⟩

lemma saveCondB_iff (scores : Nat → ℚ) (k : Nat) :
    saveCondB scores k = true ↔
      (k = 1 ∨ listMax (histUpTo scores (k - 1)) < scores k) := by
  simp [saveCondB]

lemma decayCondB_iff (cfg : MwtArgs) (scores : Nat → ℚ) (k : Nat) :
    decayCondB cfg scores k = true ↔
      (cfg.decay_epoch < (k : Int) ∧ scores k ≤ scores (k - 1)) := by
  simp [decayCondB]

lemma histUpTo_append_exists (scores : Nat → ℚ) {e n : Nat} (h : e ≤ n) :
    ∃ t, histUpTo scores n = histUpTo scores e ++ t := by
  obtain ⟨k, rfl⟩ := Nat.exists_eq_add_of_le h
  induction k with
  | zero => exact ⟨[], by simp⟩
  | succ k ih =>
    obtain ⟨t, ht⟩ := ih (by omega)
    refine ⟨t ++ [scores (e + k + 1)], ?_⟩
    rw [show e + (k + 1) = (e + k) + 1 by omega, histUpTo_succ, ht,
      List.append_assoc]

lemma take_histUpTo (scores : Nat → ℚ) {m n : Nat} (h : m ≤ n) :
    (histUpTo scores n).take m = histUpTo scores m := by
  obtain ⟨t, ht⟩ := histUpTo_append_exists scores h
  rw [ht]
  exact List.take_left' (length_histUpTo scores m)

lemma getElem_histUpTo (scores : Nat → ℚ) {n i : Nat}
    (hi : i < (histUpTo scores n).length) :
    (histUpTo scores n)[i] = scores (i + 1) := by
  simp [histUpTo]

lemma le_foldl_max (xs : List ℚ) (b : ℚ) : b ≤ xs.foldl max b := by
  induction xs generalizing b with
  | nil => exact le_refl b
  | cons x xs ih => exact le_trans (le_max_left b x) (ih (max b x))

lemma mem_le_foldl_max (xs : List ℚ) : ∀ (b a : ℚ), a ∈ xs → a ≤ xs.foldl max b := by
  induction xs with
  | nil => intro b a h; cases h
  | cons x xs ih =>
    intro b a h
    rcases List.mem_cons.mp h with rfl | h'
    · exact le_trans (le_max_right b a) (le_foldl_max xs (max b a))
    · exact ih (max b x) a h'

lemma foldl_max_mem (xs : List ℚ) : ∀ b : ℚ, xs.foldl max b = b ∨ xs.foldl max b ∈ xs := by
  induction xs with
  | nil => intro b; left; rfl
  | cons x xs ih =>
    intro b
    rw [List.foldl_cons]
    rcases ih (max b x) with h | h
    · rw [h]
      rcases max_choice b x with h' | h'
      · left; exact h'
      · right; rw [h']; exact List.mem_cons_self x xs
    · right; exact List.mem_cons_of_mem x h

/-- Every member of a rational list is at most `listMax` of that list. -/
lemma le_listMax {l : List ℚ} {a : ℚ} (h : a ∈ l) : a ≤ listMax l := by
  cases l with
  | nil => cases h
  | cons x xs =>
    show a ≤ xs.foldl max x
    rcases List.mem_cons.mp h with rfl | h'
    · exact le_foldl_max xs a
    · exact mem_le_foldl_max xs x a h'

/-- `listMax` of a nonempty list is one of its members. -/
lemma listMax_mem {l : List ℚ} (h : l ≠ []) : listMax l ∈ l := by
  cases l with
  | nil => exact absurd rfl h
  | cons x xs =>
    show xs.foldl max x ∈ x :: xs
    rcases foldl_max_mem xs x with h' | h'
    · rw [h']; exact List.mem_cons_self x xs
    · exact List.mem_cons_of_mem x h'

/-- `np.argmax` over a list of rationals: the index of the first
occurrence of the maximum (`train`, line 174). -/
def np_argmax (l : List ℚ) : Nat := l.findIdx (fun a => decide (listMax l ≤ a))

lemma np_argmax_lt_length {l : List ℚ} (h : l ≠ []) : np_argmax l < l.length :=
  List.findIdx_lt_length_of_exists ⟨listMax l, listMax_mem h, by simp⟩

lemma getElem_np_argmax {l : List ℚ} (hlt : np_argmax l < l.length) :
    l[np_argmax l] = listMax l := by
  have hw : l[l.findIdx (fun a => decide (listMax l ≤ a))]? =
      some (l[np_argmax l]) := List.getElem?_eq_getElem hlt
  have h1 := List.findIdx_of_getElem?_eq_some hw
  have h2 : listMax l ≤ l[np_argmax l] := of_decide_eq_true h1
  have h3 : l[np_argmax l] ≤ listMax l := le_listMax (List.getElem_mem hlt)
  exact le_antisymm h3 h2

lemma lt_listMax_of_lt_np_argmax {l : List ℚ} {j : Nat} (hj : j < np_argmax l)
    (hjl : j < l.length) : l[j] < listMax l := by
  have hj' : j < l.findIdx (fun a => decide (listMax l ≤ a)) := hj
  have h1 : (decide (listMax l ≤ l[j])) = false := List.not_of_lt_findIdx hj'
  have h2 : ¬ listMax l ≤ l[j] := of_decide_eq_false h1
  exact lt_of_not_le h2

/-- A small concrete configuration used by the witnesses. -/
def cfgW : MwtArgs :=
  { data_dir := "data/mwt", train_file := "tr", eval_file := "dv",
    output_file := "out", gold_file := "gold", save_dir := "saved_models/mwt",
    save_name := none, lang := "sl", best_param := false, dict_only := false,
    lr := 1, lr_decay := 2, decay_epoch := 5, num_epoch := 3 }

/-- Like `cfgW` but with a non-positive decay-start epoch. -/
def cfgBad : MwtArgs := { cfgW with decay_epoch := 0 }

/-- Concrete per-epoch dev scores used by the witnesses: a tie at epoch 2
and a strict improvement at epoch 3. -/
def scoresW : Nat → ℚ := fun e => if e = 1 then 1 else if e = 2 then 1 else 2

/-- The loop state after the three witness epochs: the checkpoint is
saved at epochs 1 and 3 but not at the tie epoch 2, and no decay occurs
(`decay_epoch` is past the last epoch). -/
def sW : TrainState :=
  { dev_score_history := [1, 1, 2], current_lr := 1,
    saves := [1, 3], lr_changes := [] }

/-- **C1.** In the seq2seq training loop, a checkpoint is saved
(`trainer.save`, line 161) at epoch `e` if and only if `e` is the first
completed epoch, or the epoch's dev score strictly exceeds the maximum
of all previously recorded dev scores (the first `e - 1` entries of the
dev score history); a dev score equal to the previous maximum does not
trigger a save. -/
theorem checkpoint_save_iff (cfg : MwtArgs) (scores : Nat → ℚ) (s : TrainState)
    (hd : 1 ≤ cfg.decay_epoch) (hs : trainLoop cfg scores = some s) (e : Nat) :
    e ∈ s.saves ↔
      (1 ≤ e ∧ e ≤ cfg.num_epoch ∧
        (e = 1 ∨ listMax (s.dev_score_history.take (e - 1)) < scores e)) := by
  unfold trainLoop at hs
  rw [runEpochs_eq cfg scores hd cfg.num_epoch] at hs
  obtain rfl : _ = s := Option.some.inj hs
  constructor
  · intro hm
    obtain ⟨h1, h2, hc⟩ := (mem_savesUpTo scores cfg.num_epoch e).mp hm
    refine ⟨h1, h2, ?_⟩
    rcases (saveCondB_iff scores e).mp hc with h | h
    · exact Or.inl h
    · right
      show listMax ((histUpTo scores cfg.num_epoch).take (e - 1)) < scores e
      rwa [take_histUpTo scores (by omega)]
  · rintro ⟨h1, h2, hc⟩
    refine (mem_savesUpTo scores cfg.num_epoch e).mpr ⟨h1, h2, ?_⟩
    refine (saveCondB_iff scores e).mpr ?_
    rcases hc with h | h
    · exact Or.inl h
    · right
      have h' : listMax ((histUpTo scores cfg.num_epoch).take (e - 1)) < scores e := h
      rwa [take_histUpTo scores (by omega)] at h'

theorem checkpoint_save_iff_witness :
    (1 : Int) ≤ cfgW.decay_epoch ∧ trainLoop cfgW scoresW = some sW ∧
    ((3 ∈ sW.saves ↔
      (1 ≤ 3 ∧ 3 ≤ cfgW.num_epoch ∧
        (3 = 1 ∨ listMax (sW.dev_score_history.take (3 - 1)) < scoresW 3))) ∧
     (2 ∈ sW.saves ↔
      (1 ≤ 2 ∧ 2 ≤ cfgW.num_epoch ∧
        (2 = 1 ∨ listMax (sW.dev_score_history.take (2 - 1)) < scoresW 2)))) :=
  ⟨by decide, by decide,
    checkpoint_save_iff cfgW scoresW sW (by decide) (by decide) 3,
    checkpoint_save_iff cfgW scoresW sW (by decide) (by decide) 2⟩

/-- **C2.** In the seq2seq training loop, the learning rate is
multiplied by `lr_decay` and applied to the trainer (lines 165-167) at
epoch `e` if and only if `e` strictly exceeds `decay_epoch` and the dev
score of epoch `e` is at most the dev score of the immediately
preceding epoch `e - 1` — the last entry of the history at that moment,
which has not yet received the current score.  The resulting learning
rate is the configured one times `lr_decay` once per decayed epoch. -/
theorem lr_decay_iff (cfg : MwtArgs) (scores : Nat → ℚ) (s : TrainState)
    (hd : 1 ≤ cfg.decay_epoch) (hs : trainLoop cfg scores = some s) :
    (∀ e, e ∈ s.lr_changes ↔
      (1 ≤ e ∧ e ≤ cfg.num_epoch ∧ cfg.decay_epoch < (e : Int) ∧
        scores e ≤ scores (e - 1))) ∧
    (∀ e, 2 ≤ e → e ≤ cfg.num_epoch →
      (s.dev_score_history.take (e - 1)).getLast? = some (scores (e - 1))) ∧
    s.current_lr = cfg.lr * cfg.lr_decay ^ s.lr_changes.length := by
  unfold trainLoop at hs
  rw [runEpochs_eq cfg scores hd cfg.num_epoch] at hs
  obtain rfl : _ = s := Option.some.inj hs
  refine ⟨fun e => ?_, fun e he1 he2 => ?_, rfl⟩
  · constructor
    · intro hm
      obtain ⟨h1, h2, hc⟩ := (mem_decaysUpTo cfg scores cfg.num_epoch e).mp hm
      obtain ⟨h3, h4⟩ := (decayCondB_iff cfg scores e).mp hc
      exact ⟨h1, h2, h3, h4⟩
    · rintro ⟨h1, h2, h3, h4⟩
      exact (mem_decaysUpTo cfg scores cfg.num_epoch e).mpr
        ⟨h1, h2, (decayCondB_iff cfg scores e).mpr ⟨h3, h4⟩⟩
  · show ((histUpTo scores cfg.num_epoch).take (e - 1)).getLast? = some (scores (e - 1))
    rw [take_histUpTo scores (by omega)]
    exact getLast?_histUpTo scores (by omega)

theorem lr_decay_iff_witness :
    (1 : Int) ≤ cfgW.decay_epoch ∧ trainLoop cfgW scoresW = some sW ∧
    ((2 ∈ sW.lr_changes ↔
      (1 ≤ 2 ∧ 2 ≤ cfgW.num_epoch ∧ cfgW.decay_epoch < ((2 : Nat) : Int) ∧
        scoresW 2 ≤ scoresW 1)) ∧
     (sW.dev_score_history.take 1).getLast? = some (scoresW 1) ∧
     sW.current_lr = cfgW.lr * cfgW.lr_decay ^ sW.lr_changes.length) :=
  ⟨by decide, by decide,
    (lr_decay_iff cfgW scoresW sW (by decide) (by decide)).1 2,
    (lr_decay_iff cfgW scoresW sW (by decide) (by decide)).2.1 2 (by decide) (by decide),
    (lr_decay_iff cfgW scoresW sW (by decide) (by decide)).2.2⟩

/-- **C4.** For every configured epoch count ≥ 1 (and well-formed
`decay_epoch`), exactly one dev score is appended to the history per
completed epoch: after `e` completed epochs the history has length `e`
and equals the per-epoch scores `scores 1, …, scores e`, the final
history has length `num_epoch`, and each intermediate history stays an
unchanged initial segment of the final one (entries are never mutated
after being appended). -/
theorem dev_history_per_epoch (cfg : MwtArgs) (scores : Nat → ℚ)
    (hd : 1 ≤ cfg.decay_epoch) (_hn : 1 ≤ cfg.num_epoch) :
    ∃ s, trainLoop cfg scores = some s ∧
      s.dev_score_history.length = cfg.num_epoch ∧
      ∀ e, e ≤ cfg.num_epoch → ∃ se, runEpochs cfg scores e = some se ∧
        se.dev_score_history.length = e ∧
        se.dev_score_history = histUpTo scores e ∧
        ∃ t, s.dev_score_history = se.dev_score_history ++ t := by
  refine ⟨_, runEpochs_eq cfg scores hd cfg.num_epoch,
    length_histUpTo scores _, ?_⟩
  intro e he
  exact ⟨_, runEpochs_eq cfg scores hd e, length_histUpTo scores _, rfl,
    histUpTo_append_exists scores he⟩

theorem dev_history_per_epoch_witness :
    (1 : Int) ≤ cfgW.decay_epoch ∧ 1 ≤ cfgW.num_epoch ∧
    (∃ s, trainLoop cfgW scoresW = some s ∧
      s.dev_score_history.length = cfgW.num_epoch ∧
      ∀ e, e ≤ cfgW.num_epoch → ∃ se, runEpochs cfgW scoresW e = some se ∧
        se.dev_score_history.length = e ∧
        se.dev_score_history = histUpTo scoresW e ∧
        ∃ t, s.dev_score_history = se.dev_score_history ++ t) :=
  ⟨by decide, by decide, dev_history_per_epoch cfgW scoresW (by decide) (by decide)⟩

/-- **C8.** With `decay_epoch ≥ 1`, the read of
`dev_score_history[-1]` in the lr decision (line 165) is reached only
with a nonempty history, so the whole loop runs without faulting; with
`decay_epoch ≤ 0` and at least one epoch, the first epoch evaluates
`dev_score_history[-1]` on the empty history, which is out of bounds
(the run faults). -/
theorem history_last_read_bounds (cfg : MwtArgs) (scores : Nat → ℚ) :
    (1 ≤ cfg.decay_epoch → (trainLoop cfg scores).isSome = true) ∧
    (cfg.decay_epoch ≤ 0 → 1 ≤ cfg.num_epoch → trainLoop cfg scores = none) := by
  constructor
  · intro hd
    unfold trainLoop
    rw [runEpochs_eq cfg scores hd]
    rfl
  · intro hd hn
    have hstep : epochStep cfg 1 (scores 1) (initState cfg) = none := by
      have hpos : cfg.decay_epoch < (1 : Int) := by omega
      simp [epochStep, saveDecision, initState, decayDecision, hpos]
    have key : ∀ n, runEpochs cfg scores (n + 1) = none := by
      intro n
      induction n with
      | zero =>
        have h0 : runEpochs cfg scores (0 + 1) =
            match runEpochs cfg scores 0 with
            | none => none
            | some s => epochStep cfg (0 + 1) (scores (0 + 1)) s := rfl
        rw [h0]
        exact hstep
      | succ k ih =>
        have h0 : runEpochs cfg scores (k + 1 + 1) =
            match runEpochs cfg scores (k + 1) with
            | none => none
            | some s => epochStep cfg (k + 1 + 1) (scores (k + 1 + 1)) s := rfl
        rw [h0, ih]
    obtain ⟨m, hm⟩ : ∃ m, cfg.num_epoch = m + 1 := ⟨cfg.num_epoch - 1, by omega⟩
    unfold trainLoop
    rw [hm]
    exact key m

theorem history_last_read_bounds_witness :
    (trainLoop cfgW scoresW).isSome = true ∧ trainLoop cfgBad scoresW = none :=
  ⟨(history_last_read_bounds cfgW scoresW).1 (by decide),
   (history_last_read_bounds cfgBad scoresW).2 (by decide) (by decide)⟩

/-- Modelled from the spec: `param_manager.update(args, best_f)`
(line 177) calls `ParamManager.update` of `models/common/param.py`,
which is not among the sources; per the spec the per-language preset
record is overwritten only when the new best score strictly exceeds the
stored one (monotonic improvement discipline). -/
def paramManagerUpdate (stored : Option ℚ) (newScore : ℚ) : Option ℚ :=
  match stored with
  | none => some newScore
  | some old => if old < newScore then some newScore else some old

/-- `best_f` as reported at line 174: `max(dev_score_history)*100`. -/
def bestF (hist : List ℚ) : ℚ := listMax hist * 100

/-- `best_epoch` as reported at line 174:
`np.argmax(dev_score_history)+1` (`np.argmax` returns the first index
achieving the maximum). -/
def bestEpoch (hist : List ℚ) : Nat := np_argmax hist + 1

/-- **C5.** At the end of a seq2seq run the reported best score is the
maximum of the dev score history scaled by 100, the reported best epoch
is the 1-based index of the first epoch achieving that maximum, and the
preset store is then updated monotonically (overwriting only on strict
improvement; the store update is modelled from the spec, see
`paramManagerUpdate`). -/
theorem best_report (cfg : MwtArgs) (scores : Nat → ℚ)
    (hd : 1 ≤ cfg.decay_epoch) (hn : 1 ≤ cfg.num_epoch) :
    ∃ s, trainLoop cfg scores = some s ∧
      bestF s.dev_score_history = listMax s.dev_score_history * 100 ∧
      1 ≤ bestEpoch s.dev_score_history ∧
      bestEpoch s.dev_score_history ≤ cfg.num_epoch ∧
      scores (bestEpoch s.dev_score_history) = listMax s.dev_score_history ∧
      (∀ j, 1 ≤ j → j < bestEpoch s.dev_score_history →
        scores j < listMax s.dev_score_history) ∧
      (∀ old newScore : ℚ, paramManagerUpdate (some old) newScore =
        if old < newScore then some newScore else some old) := by
  have hne : histUpTo scores cfg.num_epoch ≠ [] := histUpTo_ne_nil scores hn
  have hlt : np_argmax (histUpTo scores cfg.num_epoch) <
      (histUpTo scores cfg.num_epoch).length := np_argmax_lt_length hne
  refine ⟨_, runEpochs_eq cfg scores hd cfg.num_epoch, rfl, ?_, ?_, ?_, ?_,
    fun old newScore => rfl⟩
  · show 1 ≤ np_argmax (histUpTo scores cfg.num_epoch) + 1
    omega
  · show np_argmax (histUpTo scores cfg.num_epoch) + 1 ≤ cfg.num_epoch
    have h := hlt
    rw [length_histUpTo] at h
    omega
  · show scores (np_argmax (histUpTo scores cfg.num_epoch) + 1) =
      listMax (histUpTo scores cfg.num_epoch)
    rw [← getElem_histUpTo scores hlt]
    exact getElem_np_argmax hlt
  · intro j hj1 hj2
    have hj2' : j - 1 < np_argmax (histUpTo scores cfg.num_epoch) := by
      have h : j < np_argmax (histUpTo scores cfg.num_epoch) + 1 := hj2
      omega
    have hjl : j - 1 < (histUpTo scores cfg.num_epoch).length := by
      have h := hlt
      omega
    have h := lt_listMax_of_lt_np_argmax hj2' hjl
    rw [getElem_histUpTo scores hjl] at h
    rwa [show j - 1 + 1 = j by omega] at h

theorem best_report_witness :
    (1 : Int) ≤ cfgW.decay_epoch ∧ 1 ≤ cfgW.num_epoch ∧
    (∃ s, trainLoop cfgW scoresW = some s ∧
      bestF s.dev_score_history = listMax s.dev_score_history * 100 ∧
      1 ≤ bestEpoch s.dev_score_history ∧
      bestEpoch s.dev_score_history ≤ cfgW.num_epoch ∧
      scoresW (bestEpoch s.dev_score_history) = listMax s.dev_score_history ∧
      (∀ j, 1 ≤ j → j < bestEpoch s.dev_score_history →
        scoresW j < listMax s.dev_score_history) ∧
      (∀ old newScore : ℚ, paramManagerUpdate (some old) newScore =
        if old < newScore then some newScore else some old)) :=
  ⟨by decide, by decide, best_report cfgW scoresW (by decide) (by decide)⟩

/-- `'{}/{}_mwt_expander.pt'`-style resolution of the model file path
(lines 92-94): an explicit `save_name` is joined to `save_dir`,
otherwise the language-derived default name is used. -/
def modelFileOf (a : MwtArgs) : String :=
  match a.save_name with
  | some n => a.save_dir ++ "/" ++ n
  | none => a.save_dir ++ "/" ++ a.lang ++ "_mwt_expander.pt"

/-- The arguments after line 94 (`args['save_name'] = model_file`) and
the optional `best_param` preset overwrite of lines 102-103
(`loadToArgs` stands for the external `param_manager.load_to_args`). -/
def resolvedArgs (loadToArgs : MwtArgs → MwtArgs) (a0 : MwtArgs) : MwtArgs :=
  if ({ a0 with save_name := some (modelFileOf a0) } : MwtArgs).best_param then
    loadToArgs { a0 with save_name := some (modelFileOf a0) }
  else { a0 with save_name := some (modelFileOf a0) }

/-- Externally observable actions of the `train` entry point, one per
side-effecting call, in program order. -/
inductive TrainEvent where
  | writeConfig (path : String) (savedArgs : MwtArgs)
  | skipExit
  | dictTrain
  | dictPredict
  | writeConll (path : String)
  | scorePass (f : ℚ)
  | saveModel (path : String)
  | enterEpochLoop
  | reportBest (f : ℚ) (epoch : Nat)
  | presetUpdate (f : ℚ)
  deriving Repr, DecidableEq

/-- `utils.save_config(args, '{}/{}_config.json'.format(...))`
(line 104). -/
def configEventOf (a : MwtArgs) : TrainEvent :=
  TrainEvent.writeConfig (a.save_dir ++ "/" ++ a.lang ++ "_config.json") a

/-- The `train` entry point (lines 84-177) as an event trace.
`loadToArgs` stands for the external `param_manager.load_to_args`;
`ntb`/`ndb` are `len(train_batch)`/`len(dev_batch)`; `scores e` is the
dev score the scorer yields at epoch `e` of the seq2seq loop, and
`dictF` the dev score of the dictionary path.  `none` models a faulting
run. -/
def trainOrch (loadToArgs : MwtArgs → MwtArgs) (a0 : MwtArgs)
    (ntb ndb : Nat) (scores : Nat → ℚ) (dictF : ℚ) :
    Option (List TrainEvent) :=
  if ntb = 0 ∨ ndb = 0 then
    some [configEventOf (resolvedArgs loadToArgs a0), TrainEvent.skipExit]
  else if (resolvedArgs loadToArgs a0).dict_only then
    some [configEventOf (resolvedArgs loadToArgs a0),
      TrainEvent.dictTrain, TrainEvent.dictPredict,
      TrainEvent.writeConll ((resolvedArgs loadToArgs a0).data_dir ++ "/" ++
        (resolvedArgs loadToArgs a0).output_file),
      TrainEvent.scorePass dictF,
      TrainEvent.saveModel ((resolvedArgs loadToArgs a0).save_name.getD "")]
  else
    match trainLoop (resolvedArgs loadToArgs a0) scores with
    | none => none
    | some s =>
      some ([configEventOf (resolvedArgs loadToArgs a0), TrainEvent.enterEpochLoop] ++
        s.saves.map (fun _ =>
          TrainEvent.saveModel ((resolvedArgs loadToArgs a0).save_name.getD "")) ++
        [TrainEvent.reportBest (bestF s.dev_score_history)
           (bestEpoch s.dev_score_history),
         TrainEvent.presetUpdate (bestF s.dev_score_history)])

lemma resolvedArgs_of_not_best (loadToArgs : MwtArgs → MwtArgs) (a : MwtArgs)
    (hb : a.best_param = false) :
    resolvedArgs loadToArgs a = { a with save_name := some (modelFileOf a) } := by
  unfold resolvedArgs
  have hb' : ({ a with save_name := some (modelFileOf a) } : MwtArgs).best_param
      = false := hb
  rw [hb']
  simp

/-- **C3.** If the training batch provider or the dev batch provider has
zero batches, `train` terminates right after the skip message
(`exit()`): the trace ends in the skip event, the epoch loop is never
entered, no `trainer.save` of either strategy occurs, and the run does
not fault (the skip is not an error). -/
theorem empty_data_skips (loadToArgs : MwtArgs → MwtArgs) (a : MwtArgs)
    (ntb ndb : Nat) (scores : Nat → ℚ) (dictF : ℚ)
    (h : ntb = 0 ∨ ndb = 0) :
    ∃ tr, trainOrch loadToArgs a ntb ndb scores dictF = some tr ∧
      tr.getLast? = some TrainEvent.skipExit ∧
      TrainEvent.enterEpochLoop ∉ tr ∧
      (∀ p, TrainEvent.saveModel p ∉ tr) ∧
      TrainEvent.dictTrain ∉ tr := by
  refine ⟨[configEventOf (resolvedArgs loadToArgs a), TrainEvent.skipExit],
    ?_, rfl, ?_, ?_, ?_⟩
  · unfold trainOrch
    rw [if_pos h]
  · simp [configEventOf]
  · intro p
    simp [configEventOf]
  · simp [configEventOf]

theorem empty_data_skips_witness :
    ((0 : Nat) = 0 ∨ (2 : Nat) = 0) ∧
    (∃ tr, trainOrch id cfgW 0 2 scoresW 1 = some tr ∧
      tr.getLast? = some TrainEvent.skipExit ∧
      TrainEvent.enterEpochLoop ∉ tr ∧
      (∀ p, TrainEvent.saveModel p ∉ tr) ∧
      TrainEvent.dictTrain ∉ tr) :=
  ⟨Or.inl rfl, empty_data_skips id cfgW 0 2 scoresW 1 (Or.inl rfl)⟩

/-- **C9.** In train mode the per-language config file is written before
the no-data check, with `save_name` already resolved to the full model
file path (line 94 precedes line 104, which precedes the check at
line 107); hence a run skipped for lack of data still writes the config
— containing the resolved `save_name` — and produces no model save.
(Stated for `best_param = false`, where the written record is exactly
the command-line arguments with `save_name` resolved.) -/
theorem config_written_on_skip (loadToArgs : MwtArgs → MwtArgs) (a : MwtArgs)
    (ntb ndb : Nat) (scores : Nat → ℚ) (dictF : ℚ)
    (hb : a.best_param = false) (h : ntb = 0 ∨ ndb = 0) :
    trainOrch loadToArgs a ntb ndb scores dictF =
      some [TrainEvent.writeConfig (a.save_dir ++ "/" ++ a.lang ++ "_config.json")
              { a with save_name := some (modelFileOf a) },
            TrainEvent.skipExit] := by
  unfold trainOrch
  rw [if_pos h, resolvedArgs_of_not_best loadToArgs a hb]
  rfl

theorem config_written_on_skip_witness :
    cfgW.best_param = false ∧ ((0 : Nat) = 0 ∨ (2 : Nat) = 0) ∧
    trainOrch id cfgW 0 2 scoresW 1 =
      some [TrainEvent.writeConfig
              (cfgW.save_dir ++ "/" ++ cfgW.lang ++ "_config.json")
              { cfgW with save_name := some (modelFileOf cfgW) },
            TrainEvent.skipExit] :=
  ⟨rfl, Or.inl rfl, config_written_on_skip id cfgW 0 2 scoresW 1 rfl (Or.inl rfl)⟩

/-- **C6.** With the dictionary strategy selected and data present,
training bypasses the epoch loop: after the config write the trace is
exactly one dictionary train, one predict over the dev candidates, one
scoring pass (serialize then score), and one save of the dictionary, in
that order; the save is unconditional on the achieved score (the
equation holds for every `dictF`). -/
theorem dict_only_single_cycle (loadToArgs : MwtArgs → MwtArgs) (a : MwtArgs)
    (ntb ndb : Nat) (scores : Nat → ℚ) (dictF : ℚ)
    (hb : a.best_param = false) (hdict : a.dict_only = true)
    (h1 : ntb ≠ 0) (h2 : ndb ≠ 0) :
    trainOrch loadToArgs a ntb ndb scores dictF =
      some [TrainEvent.writeConfig (a.save_dir ++ "/" ++ a.lang ++ "_config.json")
              { a with save_name := some (modelFileOf a) },
            TrainEvent.dictTrain, TrainEvent.dictPredict,
            TrainEvent.writeConll (a.data_dir ++ "/" ++ a.output_file),
            TrainEvent.scorePass dictF,
            TrainEvent.saveModel (modelFileOf a)] := by
  unfold trainOrch
  rw [if_neg (by simp [h1, h2]), resolvedArgs_of_not_best loadToArgs a hb,
    if_pos (show ({ a with save_name := some (modelFileOf a) } :
      MwtArgs).dict_only = true from hdict)]
  rfl

/-- Like `cfgW` but with the dictionary strategy selected. -/
def cfgDictW : MwtArgs := { cfgW with dict_only := true }

theorem dict_only_single_cycle_witness :
    cfgDictW.best_param = false ∧ cfgDictW.dict_only = true ∧
    ((2 : Nat) ≠ 0) ∧ ((3 : Nat) ≠ 0) ∧
    trainOrch id cfgDictW 2 3 scoresW 1 =
      some [TrainEvent.writeConfig
              (cfgDictW.save_dir ++ "/" ++ cfgDictW.lang ++ "_config.json")
              { cfgDictW with save_name := some (modelFileOf cfgDictW) },
            TrainEvent.dictTrain, TrainEvent.dictPredict,
            TrainEvent.writeConll (cfgDictW.data_dir ++ "/" ++ cfgDictW.output_file),
            TrainEvent.scorePass 1,
            TrainEvent.saveModel (modelFileOf cfgDictW)] :=
  ⟨rfl, rfl, by decide, by decide,
    dict_only_single_cycle id cfgDictW 2 3 scoresW 1 rfl rfl
      (by decide) (by decide)⟩

/-- Externally observable actions of the `evaluate` entry point
(lines 179-218), one per side-effecting call, in program order. -/
inductive EvalEvent where
  | loadConfig (path : String)
  | skipReport (lang : String)
  | loadDictModel (path : String)
  | loadSeqModel (path : String)
  | dictPredictPass
  | seqPredictPass
  | writeConll (path : String)
  | scoreReport (lang : String) (score : ℚ)
  deriving Repr, DecidableEq

/-- The `evaluate` entry point as an event trace: `args` are the current
command-line arguments, `loaded` the persisted configuration read back
from the config file (line 182), `nb` the number of eval batches,
`score` the score the scorer yields.  The trainer type and the model
file come from `loaded` (lines 198-207); the skip branch (lines
189-193) prints the score-absent report and exits. -/
def evaluateOrch (args loaded : MwtArgs) (nb : Nat) (score : ℚ) :
    List EvalEvent :=
  if nb = 0 then
    [EvalEvent.loadConfig (args.save_dir ++ "/" ++ args.lang ++ "_config.json"),
     EvalEvent.skipReport args.lang]
  else
    EvalEvent.loadConfig (args.save_dir ++ "/" ++ args.lang ++ "_config.json") ::
      ((if loaded.dict_only then
          [EvalEvent.loadDictModel (loaded.save_name.getD ""),
           EvalEvent.dictPredictPass]
        else
          [EvalEvent.loadSeqModel (loaded.save_name.getD ""),
           EvalEvent.seqPredictPass]) ++
       [EvalEvent.writeConll (args.data_dir ++ "/" ++ args.output_file),
        EvalEvent.scoreReport args.lang score])

/-- **C7.** In evaluation mode the trainer type is chosen from the
persisted configuration's strategy flag (the trace never depends on the
command-line `dict_only`), its checkpoint is loaded from the path
recorded in that configuration, and one predict pass runs over the eval
batches; with zero eval batches, evaluation is skipped after a
score-absent report: no model is loaded and nothing is scored. -/
theorem evaluate_uses_loaded_config (args loaded : MwtArgs) (nb : Nat)
    (score : ℚ) :
    (nb = 0 → evaluateOrch args loaded nb score =
      [EvalEvent.loadConfig (args.save_dir ++ "/" ++ args.lang ++ "_config.json"),
       EvalEvent.skipReport args.lang]) ∧
    (nb ≠ 0 → loaded.dict_only = true → evaluateOrch args loaded nb score =
      [EvalEvent.loadConfig (args.save_dir ++ "/" ++ args.lang ++ "_config.json"),
       EvalEvent.loadDictModel (loaded.save_name.getD ""),
       EvalEvent.dictPredictPass,
       EvalEvent.writeConll (args.data_dir ++ "/" ++ args.output_file),
       EvalEvent.scoreReport args.lang score]) ∧
    (nb ≠ 0 → loaded.dict_only = false → evaluateOrch args loaded nb score =
      [EvalEvent.loadConfig (args.save_dir ++ "/" ++ args.lang ++ "_config.json"),
       EvalEvent.loadSeqModel (loaded.save_name.getD ""),
       EvalEvent.seqPredictPass,
       EvalEvent.writeConll (args.data_dir ++ "/" ++ args.output_file),
       EvalEvent.scoreReport args.lang score]) ∧
    (∀ b : Bool, evaluateOrch { args with dict_only := b } loaded nb score =
      evaluateOrch args loaded nb score) := by
  refine ⟨fun h => ?_, fun h hd => ?_, fun h hd => ?_, fun b => ?_⟩
  · simp [evaluateOrch, h]
  · simp [evaluateOrch, h, hd]
  · simp [evaluateOrch, h, hd]
  · simp [evaluateOrch]

/-- A persisted configuration used by the evaluation witness: the
dictionary strategy with a recorded model path. -/
def loadedW : MwtArgs :=
  { cfgW with
    dict_only := true
    save_name := some "saved_models/mwt/sl_mwt_expander.pt" }

theorem evaluate_uses_loaded_config_witness :
    evaluateOrch cfgW loadedW 0 1 =
      [EvalEvent.loadConfig (cfgW.save_dir ++ "/" ++ cfgW.lang ++ "_config.json"),
       EvalEvent.skipReport cfgW.lang] ∧
    evaluateOrch cfgW loadedW 2 1 =
      [EvalEvent.loadConfig (cfgW.save_dir ++ "/" ++ cfgW.lang ++ "_config.json"),
       EvalEvent.loadDictModel (loadedW.save_name.getD ""),
       EvalEvent.dictPredictPass,
       EvalEvent.writeConll (cfgW.data_dir ++ "/" ++ cfgW.output_file),
       EvalEvent.scoreReport cfgW.lang 1] :=
  ⟨(evaluate_uses_loaded_config cfgW loadedW 0 1).1 rfl,
   (evaluate_uses_loaded_config cfgW loadedW 2 1).2.1 (by decide) rfl⟩

/-- The process-start seeding state (`main`, lines 68-74). -/
structure SeedState where
  torch_seed : Int
  numpy_seed : Int
  random_seed : Int
  torch_cuda_seed : Option Int
  cuda : Bool
  deriving Repr, DecidableEq

/-- The seeding performed by `main` (lines 68-74): `torch.manual_seed`
and `np.random.seed` receive `args.seed`, `random.seed` receives the
literal 1234; `--cpu` clears the cuda flag, otherwise an enabled cuda
is seeded with `args.seed`. -/
def mainSeeding (seed : Int) (cpu : Bool) (cuda : Bool) : SeedState :=
  { torch_seed := seed, numpy_seed := seed, random_seed := 1234,
    torch_cuda_seed := if cpu then none else if cuda then some seed else none,
    cuda := if cpu then false else cuda }

/-- **C10.** At process start Python's `random` module is seeded with
the constant 1234 regardless of the configured seed argument, while
torch and numpy are seeded with the configured seed; two runs that
differ only in the seed argument begin with the identical
`random`-module generator seed. -/
theorem random_seed_constant :
    ∀ (s s' : Int) (cpu cuda cpu' cuda' : Bool),
      (mainSeeding s cpu cuda).random_seed = 1234 ∧
      (mainSeeding s cpu cuda).torch_seed = s ∧
      (mainSeeding s cpu cuda).numpy_seed = s ∧
      (mainSeeding s cpu cuda).random_seed =
        (mainSeeding s' cpu' cuda').random_seed :=
  fun _ _ _ _ _ _ => ⟨rfl, rfl, rfl, rfl⟩
